import Mathlib

/-!
Verification of the PDF news scraper (`src/Scrapper/RAG_Scrapper.py`).

The development shallowly embeds the scraper's pure algorithmic content:

* the text normalization pipeline `_normalize_text` (de-hyphenation of
  line-broken words, line merging into sentences, paragraph reassembly,
  whitespace cleanup), working over `List Char` as the model of Python `str`;
* the boilerplate line filter `_filter_content`;
* the breadth-first crawl `_discover_pdf_links`, with the network modelled
  as a function from URLs to the links found on the page, and the unbounded
  `while queue:` loop modelled fuel-indexed (every claim proved here is a
  safety property, so it holds for every fuel value);
* the top-level `scrape_website` return-value behaviour.

Characters are modelled at the ASCII level (Python's `str` methods and the
`re` module additionally handle non-ASCII codepoints; none of the claims
depend on that).
-/

/-- Model of Python's `\w` character class (ASCII part): letters, digits and
underscore, as used by the de-hyphenation regex `(\w+)-\n(\w+)` and by the
folder-name sanitizer `re.sub(r'[^\w\-_]', '_', domain)`. -/
def isWordChar (c : Char) : Bool := c.isAlphanum || c = '_'

/-- Model of the whitespace class used by Python's `str.strip()` and
`str.split()` (ASCII part). -/
def isSpace (c : Char) : Bool :=
  c = ' ' || c = '\t' || c = '\n' || c = '\r' || c = '\x0b' || c = '\x0c'

/-- Python `line.strip()`: remove leading and trailing whitespace. -/
def pyStrip (l : List Char) : List Char :=
  ((l.dropWhile isSpace).reverse.dropWhile isSpace).reverse

/-- Python `text.split('\n')`: split at every newline, keeping empty pieces. -/
def splitLines : List Char → List (List Char)
  | [] => [[]]
  | c :: cs =>
    if c = '\n' then [] :: splitLines cs
    else
      match splitLines cs with
      | l :: ls => (c :: l) :: ls
      | [] => [[c]]

/-- Python `sep.join(pieces)` for a fixed separator. -/
def joinWith (sep : List Char) : List (List Char) → List Char
  | [] => []
  | [l] => l
  | l :: l2 :: ls => l ++ sep ++ joinWith sep (l2 :: ls)

/-- One step of grouping a string into maximal runs separated by whitespace
(the groups, including empty ones, produced while scanning from the right). -/
def wordStep (c : Char) (ws : List (List Char)) : List (List Char) :=
  if isSpace c then [] :: ws
  else
    match ws with
    | [] => [[c]]
    | w :: rest => (c :: w) :: rest

/-- The whitespace-separated groups of a string (possibly empty groups). -/
def wgroups (l : List Char) : List (List Char) := l.foldr wordStep [[]]

/-- Drop the empty groups. -/
def dropEmpties : List (List Char) → List (List Char)
  | [] => []
  | [] :: rest => dropEmpties rest
  | (c :: w) :: rest => (c :: w) :: dropEmpties rest

/-- Python `s.split()`: the sequence of whitespace-separated words of `s`. -/
def words (l : List Char) : List (List Char) := dropEmpties (wgroups l)

/-- The concatenated word sequences of a list of strings. -/
def flatWords (ls : List (List Char)) : List (List Char) := (ls.map words).flatten

/-- Model of `re.sub(r'(\w+)-\n(\w+)', r'\1\2', text)` (line 57): scan left to
right; at the start of a maximal word run, if the run is followed by a hyphen,
a newline and a further word character, emit the run and the following word
run with the hyphen and newline removed and resume after the second run
(Python's `re.sub` resumes scanning after the end of each match); otherwise
emit the run and resume after it. -/
def dehyphenate : List Char → List Char
  | [] => []
  | c :: rest =>
    if isWordChar c then
      match h : rest.dropWhile isWordChar with
      | '-' :: '\n' :: d :: r3 =>
        if isWordChar d then
          (c :: rest.takeWhile isWordChar) ++ (d :: r3.takeWhile isWordChar)
            ++ dehyphenate (r3.dropWhile isWordChar)
        else (c :: rest.takeWhile isWordChar) ++ dehyphenate (rest.dropWhile isWordChar)
      | _ => (c :: rest.takeWhile isWordChar) ++ dehyphenate (rest.dropWhile isWordChar)
    else c :: dehyphenate rest
  termination_by l => l.length
  decreasing_by
  all_goals simp only [List.length_cons]
  all_goals first
  | omega
  | exact Nat.lt_succ_of_le ((List.dropWhile_sublist isWordChar).length_le)
  | (have h1 : (List.dropWhile isWordChar r3).length ≤ r3.length :=
       (List.dropWhile_sublist isWordChar).length_le
     have h2 : (List.dropWhile isWordChar cs).length ≤ cs.length :=
       (List.dropWhile_sublist isWordChar).length_le
     rw [h] at h2
     simp only [List.length_cons] at h2
     omega)

/-- Model of Python `s.isupper()` (ASCII): at least one cased character and no
lowercase character. -/
def pyIsUpper (l : List Char) : Bool :=
  l.any (fun c => c.isUpper || c.isLower) && l.all (fun c => !c.isLower)

/-- Model of `line[0:1].isupper()`: the first character is uppercase. -/
def headIsUpper : List Char → Bool
  | [] => false
  | c :: _ => c.isUpper

/-- The header test of `_normalize_text` (line 73):
`len(line) < 20 and (line.isupper() or (line[0:1].isupper() and i > 0 and not lines[i-1].strip()))`,
where `prev` is the original (unstripped) previous line when `i > 0`. -/
def isHeader (prev : Option (List Char)) (line : List Char) : Bool :=
  decide (line.length < 20) &&
    (pyIsUpper line ||
      (headIsUpper line &&
        (match prev with
         | some p => decide (pyStrip p = [])
         | none => false)))

/-- The sentence-ending test of `_normalize_text` (line 80):
`re.search` for `[.!?:;"\']$`. -/
def endsPunct (l : List Char) : Bool :=
  match l.getLast? with
  | some c => c = '.' || c = '!' || c = '?' || c = ':' || c = ';' || c = '"' || c = '\''
  | none => false

/-- The line-merging loop of `_normalize_text` (lines 59-89): each line is
stripped; blank lines flush the buffer and emit an empty marker line; short
header lines flush the buffer and are emitted alone; other lines accumulate
into the buffer (space-separated) and the buffer is flushed when the line
ends with sentence punctuation. `prev` carries the previous original line
(`lines[i-1]`), `buffer` the pending sentence fragment. -/
def mergeAux (prev : Option (List Char)) (buffer : List Char) :
    List (List Char) → List (List Char)
  | [] => if buffer = [] then [] else [buffer]
  | l :: rest =>
    let line := pyStrip l
    if line = [] then
      (if buffer = [] then [[]] else [buffer, []]) ++ mergeAux (some l) [] rest
    else if isHeader prev line then
      (if buffer = [] then [line] else [buffer, line]) ++ mergeAux (some l) [] rest
    else
      let buffer2 := if buffer = [] then line else buffer ++ ' ' :: line
      if endsPunct line then buffer2 :: mergeAux (some l) [] rest
      else mergeAux (some l) buffer2 rest

/-- The paragraph-reassembly loop of `_normalize_text` (lines 92-104):
consecutive non-empty merged lines are joined by single spaces into one
paragraph chunk; empty lines separate paragraphs. -/
def paraAux (cur : List (List Char)) : List (List Char) → List (List Char)
  | [] => if cur = [] then [] else [joinWith [' '] cur]
  | l :: rest =>
    if l = [] then
      if cur = [] then paraAux [] rest
      else joinWith [' '] cur :: paraAux [] rest
    else paraAux (cur ++ [l]) rest

/-- Model of `re.sub(r' +', ' ', result)` (line 107): collapse runs of
spaces to a single space. -/
def collapseSpaces : List Char → List Char
  | [] => []
  | [c] => [c]
  | c :: d :: rest =>
    if c = ' ' && d = ' ' then collapseSpaces (d :: rest)
    else c :: collapseSpaces (d :: rest)

/-- Model of `re.sub(r'\n{3,}', '\n\n', result)` (line 108): collapse runs of
three or more newlines to exactly two. -/
def collapseNewlines : List Char → List Char
  | '\n' :: '\n' :: '\n' :: rest => collapseNewlines ('\n' :: '\n' :: rest)
  | c :: rest => c :: collapseNewlines rest
  | [] => []
  termination_by l => l.length
  decreasing_by all_goals simp

/-- Model of `_normalize_text` (lines 51-110): empty input is returned as is;
otherwise the text is de-hyphenated, split into lines, line-merged,
reassembled into paragraphs joined by blank lines, and cleaned up. -/
def normalize_text (text : List Char) : List Char :=
  if text = [] then []
  else
    collapseNewlines (collapseSpaces
      (joinWith ['\n', '\n']
        (paraAux [] (mergeAux none [] (splitLines (dehyphenate text))))))

/-- The line filter of `_filter_content` (lines 127-139): each line is
stripped; blank lines are kept as empty lines; non-empty lines with at most
two words and fewer than 15 characters are dropped; all other lines are kept
stripped. -/
def filterLines : List (List Char) → List (List Char)
  | [] => []
  | l :: rest =>
    let line := pyStrip l
    if line = [] then [] :: filterLines rest
    else if (words line).length ≤ 2 ∧ line.length < 15 then filterLines rest
    else line :: filterLines rest

/-- Model of `_filter_content` (lines 112-141). The seven case-insensitive
boilerplate regex substitutions of lines 114-125 (page markers, copyright
notices, bare domains, e-mail addresses, phone numbers, ADVERTISEMENT,
CLASSIFIEDS) are modelled by an arbitrary string transformation `subst`,
since the claims about this function quantify over its result; the
subsequent line filtering is modelled exactly. -/
def filter_content (subst : List Char → List Char) (text : List Char) : List Char :=
  joinWith ['\n'] (filterLines (splitLines (subst text)))

/-- Crawl configuration: the `max_depth` and `num_pdfs` fields of
`PDFNewsScraper.__init__` (lines 20-24). -/
structure ScraperConfig where
  maxDepth : Nat
  numPdfs : Nat

/-- Model of the network, as the crawl observes it. `pdfLinks u` is the list
of absolutized PDF links `_extract_pdf_links` returns for page `u` (a Python
set; its iteration order is modelled by the list order, and a request failure
by the empty list, per the `except` clause at lines 154-156). `anchors u` is
the list of absolutized `href` targets the link-expansion loop at lines
216-221 sees on page `u` (a failure mid-page yields the prefix fetched before
the exception, covered by the universal quantification over `Web`). -/
structure Web where
  pdfLinks : String → List String
  anchors : String → List String

/-- Whether `b` occurs as a contiguous substring at the start of `l`. -/
def isPrefixL : List Char → List Char → Bool
  | [], _ => true
  | _ :: _, [] => false
  | b :: bs, c :: cs => b == c && isPrefixL bs cs

/-- Model of Python's substring test `b in l`. -/
def containsSub : List Char → List Char → Bool
  | b, [] => b.isEmpty
  | b, c :: rest => isPrefixL b (c :: rest) || containsSub b rest

/-- Python `base_url in link` on URL strings. -/
def strContains (b l : String) : Bool := containsSub b.toList l.toList

/-- The mutable crawl state of `_discover_pdf_links` apart from the queue:
`visited`, `seen_pdfs` and `pdf_links` (lines 190-192). The two Python sets
are modelled as lists queried by membership. -/
structure CrawlState where
  visited : List String
  seen_pdfs : List String
  pdf_links : List String

/-- The body of the PDF-collection loop at lines 207-210: a link not yet in
`seen_pdfs` is added to it and appended to `pdf_links`. The pair is
`(seen_pdfs, pdf_links)`. -/
def collectPdf (st : List String × List String) (link : String) :
    List String × List String :=
  if link ∈ st.1 then st else (link :: st.1, st.2 ++ [link])

/-- The result of running the crawl loop: final state, remaining queue, and
the trace of `(url, depth)` pairs actually processed (those that passed the
visited/depth guard at line 200), in processing order. -/
structure CrawlOut where
  state : CrawlState
  queue : List (String × Nat)
  trace : List (String × Nat)

/-- The links the expansion loop at lines 213-221 appends to the queue when
page `url` is processed at `depth`: nothing when `depth < max_depth` fails,
otherwise the page's anchors that contain `base_url` as a substring and are
not yet visited, paired with `depth + 1`. `visited2` is the visited set at
that moment (it already includes `url`, added at line 203). -/
def newLinksOf (cfg : ScraperConfig) (web : Web) (base url : String) (depth : Nat)
    (visited2 : List String) : List (String × Nat) :=
  if depth < cfg.maxDepth then
    ((web.anchors url).filter
      (fun l => strContains base l && !(decide (l ∈ visited2)))).map
        (fun l => (l, depth + 1))
  else []

/-- The crawl state after page `url` is processed (lines 203-210): `url` is
added to `visited` and the page's PDF links are folded into
`seen_pdfs`/`pdf_links`. -/
def procState (web : Web) (url : String) (s : CrawlState) : CrawlState :=
  ⟨url :: s.visited,
   ((web.pdfLinks url).foldl collectPdf (s.seen_pdfs, s.pdf_links)).1,
   ((web.pdfLinks url).foldl collectPdf (s.seen_pdfs, s.pdf_links)).2⟩

/-- Model of the `while queue:` loop of `_discover_pdf_links` (lines
198-225), fuel-indexed. Each iteration pops the front of the queue; a pair
that is already visited or deeper than `max_depth` is skipped; otherwise the
URL is marked visited, its PDF links are folded into `seen_pdfs`/`pdf_links`,
and, when `depth < max_depth`, the page's anchors that contain `base_url`
and are not yet visited are appended to the queue at `depth + 1`. -/
def crawlRun (cfg : ScraperConfig) (web : Web) (base : String) :
    Nat → List (String × Nat) → CrawlState → CrawlOut
  | 0, q, s => ⟨s, q, []⟩
  | _ + 1, [], s => ⟨s, [], []⟩
  | fuel + 1, (url, depth) :: rest, s =>
    if url ∈ s.visited ∨ cfg.maxDepth < depth then crawlRun cfg web base fuel rest s
    else
      let out := crawlRun cfg web base fuel
        (rest ++ newLinksOf cfg web base url depth (url :: s.visited))
        (procState web url s)
      ⟨out.state, out.queue, (url, depth) :: out.trace⟩

/-- The sequence of `(url, depth)` pairs `_discover_pdf_links` processes,
starting from the initial queue `[(base_url, 0)]` and empty state. -/
def crawlTrace (cfg : ScraperConfig) (web : Web) (fuel : Nat) (base : String) :
    List (String × Nat) :=
  (crawlRun cfg web base fuel [(base, 0)] ⟨[], [], []⟩).trace

/-- The queue remaining when the fuel runs out (empty when the loop
finished). -/
def crawlQueue (cfg : ScraperConfig) (web : Web) (fuel : Nat) (base : String) :
    List (String × Nat) :=
  (crawlRun cfg web base fuel [(base, 0)] ⟨[], [], []⟩).queue

/-- Model of `_discover_pdf_links` (lines 188-227): run the crawl and return
`pdf_links[:num_pdfs]`. -/
def discover_pdf_links (cfg : ScraperConfig) (web : Web) (fuel : Nat) (base : String) :
    List String :=
  (crawlRun cfg web base fuel [(base, 0)] ⟨[], [], []⟩).state.pdf_links.take cfg.numPdfs

/-- First-occurrence deduplication: keep each element of the list the first
time it appears, dropping elements already in `seen`. This is the reference
description of what the `seen_pdfs` bookkeeping computes. -/
def dedupNew (seen : List String) : List String → List String
  | [] => []
  | l :: ls => if l ∈ seen then dedupNew seen ls else l :: dedupNew (l :: seen) ls

/-- Scheme characters of `urllib.parse` after the leading letter. -/
def isSchemeChar (c : Char) : Bool := c.isAlphanum || c = '+' || c = '-' || c = '.'

/-- Scan for the ':' ending a scheme; `none` if a non-scheme character or the
end of the string is reached first. -/
def dropSchemeAux : List Char → Option (List Char)
  | [] => none
  | ':' :: rest => some rest
  | c :: rest => if isSchemeChar c then dropSchemeAux rest else none

/-- Strip a leading `scheme:` as `urllib.parse.urlparse` does: the scheme
must start with a letter followed by letters, digits or `+-.` up to a ':'. -/
def dropScheme (url : List Char) : List Char :=
  match url with
  | [] => []
  | c :: rest =>
    if c.isAlpha then
      match dropSchemeAux rest with
      | some r => r
      | none => url
    else url

/-- Model of `urlparse(url).netloc`: present only after a `//`, extending to
the next `/`, `?` or `#`. -/
def netlocOf (url : List Char) : List Char :=
  match dropScheme url with
  | '/' :: '/' :: r => r.takeWhile (fun c => !(c = '/' || c = '?' || c = '#'))
  | _ => []

/-- Python `domain.replace('www.', '')`: remove every occurrence of `www.`,
scanning left to right. -/
def removeWWW : List Char → List Char
  | 'w' :: 'w' :: 'w' :: '.' :: rest => removeWWW rest
  | c :: rest => c :: removeWWW rest
  | [] => []
  termination_by l => l.length
  decreasing_by all_goals (simp only [List.length_cons]; omega)

/-- The sanitizer `re.sub(r'[^\w\-_]', '_', domain)` of line 42, applied
characterwise. -/
def sanitizeChar (c : Char) : Char := if isWordChar c || c = '-' then c else '_'

/-- Model of `_get_website_folder_name` (lines 38-42). -/
def get_website_folder_name (url : String) : String :=
  String.mk ((removeWWW (netlocOf url.toList)).map sanitizeChar)

/-- Model of `_create_output_directory` (lines 44-49): the path of the
per-website output directory, as components relative to the working
directory (`Path.cwd()` is left implicit). -/
def create_output_directory (url : String) : List String :=
  ["scraped_content", get_website_folder_name url]

/-- Model of `_extract_text_from_pdf` (lines 170-186). The pymupdf page-text
extraction (including its `except` clause, which yields the empty string) is
modelled by the parameter `extractRaw`; a nonempty raw text is filtered and
normalized. `subst` is the boilerplate-substitution pass of
`_filter_content`. -/
def extract_text_from_pdf (subst : List Char → List Char)
    (extractRaw : List Nat → List Char) (content : List Nat) : List Char :=
  if content = [] then []
  else
    let raw := extractRaw content
    if raw = [] then [] else normalize_text (filter_content subst raw)

/-- The per-PDF work of the download loop at lines 263-284: `_download_pdf`
is modelled by `download` (bytes as a list of naturals; every failure is
caught at lines 166-168 and yields `b""`); empty content is skipped
(`if not pdf_content: continue`), then empty extracted text is skipped, and
otherwise the text is saved. -/
def processPdf (subst : List Char → List Char) (extractRaw : List Nat → List Char)
    (download : String → List Nat) (url : String) : Option (List Char) :=
  let content := download url
  if content = [] then none
  else
    let text := extract_text_from_pdf subst extractRaw content
    if text = [] then none else some text

/-- Model of `scrape_website` (lines 229-287). The first component is the
function's return value: `None` when no PDF links were discovered, otherwise
the output directory path. The second component models the texts the
download loop saves to disk (in submission order; the `as_completed`
completion order affects only file numbering, not which texts are saved or
the return value). -/
def scrape_website (cfg : ScraperConfig) (web : Web) (subst : List Char → List Char)
    (extractRaw : List Nat → List Char) (download : String → List Nat)
    (fuel : Nat) (url : String) : Option (List String) × List (List Char) :=
  let output_dir := create_output_directory url
  let pdf_urls := discover_pdf_links cfg web fuel url
  if pdf_urls = [] then (none, [])
  else (some output_dir, pdf_urls.filterMap (processPdf subst extractRaw download))

/-- A small concrete network used to instantiate the crawl theorems: page
`"A"` links to pages `"AB"` and `"AC"` and exposes one PDF; `"AB"` exposes a
duplicate of that PDF and a new one. -/
def webW : Web :=
  ⟨fun u => if u = "A" then ["p1.pdf"] else if u = "AB" then ["p1.pdf", "p2.pdf"] else [],
   fun u => if u = "A" then ["AB", "AC"] else if u = "AB" then ["A"] else []⟩

/-- A small concrete configuration: `max_depth = 1`, `num_pdfs = 2`. -/
def cfgW : ScraperConfig := ⟨1, 2⟩

/-- A download function in which every download fails (`_download_pdf`
returns `b""` on any exception). -/
def downloadFail : String → List Nat := fun _ => []

/-- A raw-extraction function in which pymupdf always fails. -/
def extractFail : List Nat → List Char := fun _ => []

/-! ### The crawl: depth cutoff, link-count bound, visited-set, BFS order -/

theorem crawlRun_zero (cfg : ScraperConfig) (web : Web) (base : String)
    (q : List (String × Nat)) (s : CrawlState) :
    crawlRun cfg web base 0 q s = ⟨s, q, []⟩ := rfl

theorem crawlRun_nil (cfg : ScraperConfig) (web : Web) (base : String)
    (fuel : Nat) (s : CrawlState) :
    crawlRun cfg web base (fuel + 1) [] s = ⟨s, [], []⟩ := rfl

theorem crawlRun_skip (cfg : ScraperConfig) (web : Web) (base : String)
    (fuel : Nat) (url : String) (depth : Nat) (rest : List (String × Nat))
    (s : CrawlState) (hg : url ∈ s.visited ∨ cfg.maxDepth < depth) :
    crawlRun cfg web base (fuel + 1) ((url, depth) :: rest) s =
      crawlRun cfg web base fuel rest s := by
  rw [crawlRun, if_pos hg]

theorem crawlRun_proc (cfg : ScraperConfig) (web : Web) (base : String)
    (fuel : Nat) (url : String) (depth : Nat) (rest : List (String × Nat))
    (s : CrawlState) (hg : ¬(url ∈ s.visited ∨ cfg.maxDepth < depth)) :
    crawlRun cfg web base (fuel + 1) ((url, depth) :: rest) s =
      ⟨(crawlRun cfg web base fuel
          (rest ++ newLinksOf cfg web base url depth (url :: s.visited))
          (procState web url s)).state,
       (crawlRun cfg web base fuel
          (rest ++ newLinksOf cfg web base url depth (url :: s.visited))
          (procState web url s)).queue,
       (url, depth) :: (crawlRun cfg web base fuel
          (rest ++ newLinksOf cfg web base url depth (url :: s.visited))
          (procState web url s)).trace⟩ := by
  rw [crawlRun, if_neg hg]

theorem crawl_depth_aux (cfg : ScraperConfig) (web : Web) (base : String) :
    ∀ (fuel : Nat) (q : List (String × Nat)) (s : CrawlState),
    (∀ p ∈ q, p.2 ≤ cfg.maxDepth) →
    (∀ p ∈ (crawlRun cfg web base fuel q s).trace, p.2 ≤ cfg.maxDepth) ∧
    (∀ p ∈ (crawlRun cfg web base fuel q s).queue, p.2 ≤ cfg.maxDepth) := by
  intro fuel
  induction fuel with
  | zero =>
    intro q s hq
    exact ⟨by simp [crawlRun_zero], by simpa [crawlRun_zero] using hq⟩
  | succ n ih =>
    intro q s hq
    rcases q with _ | ⟨⟨url, depth⟩, rest⟩
    · simp [crawlRun_nil]
    · by_cases hg : url ∈ s.visited ∨ cfg.maxDepth < depth
      · rw [crawlRun_skip cfg web base n url depth rest s hg]
        exact ih rest s (fun p hp => hq p (List.mem_cons_of_mem _ hp))
      · rw [crawlRun_proc cfg web base n url depth rest s hg]
        have hd : depth ≤ cfg.maxDepth := by
          push_neg at hg
          omega
        have hnew : ∀ p ∈ newLinksOf cfg web base url depth (url :: s.visited),
            p.2 ≤ cfg.maxDepth := by
          intro p hp
          unfold newLinksOf at hp
          split at hp
          · rcases List.mem_map.mp hp with ⟨l, _, rfl⟩
            omega
          · simp at hp
        have hq2 : ∀ p ∈ rest ++ newLinksOf cfg web base url depth (url :: s.visited),
            p.2 ≤ cfg.maxDepth := by
          intro p hp
          rcases List.mem_append.mp hp with h1 | h1
          · exact hq p (List.mem_cons_of_mem _ h1)
          · exact hnew p h1
        have h3 := ih (rest ++ newLinksOf cfg web base url depth (url :: s.visited))
          (procState web url s) hq2
        refine ⟨?_, h3.2⟩
        intro p hp
        rcases List.mem_cons.mp hp with rfl | hp2
        · exact hd
        · exact h3.1 p hp2

/-- C1. Depth cutoff: every `(url, depth)` pair the crawl actually processes
has `depth ≤ max_depth` (a dequeued pair with greater depth is skipped by the
guard at line 200), and every pair ever sitting in the queue — in particular
every link enqueued at `depth + 1` by a page at `depth < max_depth` — also
satisfies the bound. -/
theorem crawl_depth_cutoff (cfg : ScraperConfig) (web : Web) (fuel : Nat) (base : String) :
    (∀ p ∈ crawlTrace cfg web fuel base, p.2 ≤ cfg.maxDepth) ∧
    (∀ p ∈ crawlQueue cfg web fuel base, p.2 ≤ cfg.maxDepth) := by
  have h := crawl_depth_aux cfg web base fuel [(base, 0)] ⟨[], [], []⟩ (by simp)
  exact ⟨h.1, h.2⟩

theorem crawl_depth_cutoff_witness :
    (("AB", 1) ∈ crawlTrace cfgW webW 6 "A" ∧ (1 : Nat) ≤ cfgW.maxDepth) ∧
    ∀ p ∈ crawlQueue cfgW webW 6 "A", p.2 ≤ cfgW.maxDepth := by
  have hm : ("AB", 1) ∈ crawlTrace cfgW webW 6 "A" := by decide
  exact ⟨⟨hm, (crawl_depth_cutoff cfgW webW 6 "A").1 ("AB", 1) hm⟩,
    (crawl_depth_cutoff cfgW webW 6 "A").2⟩

/-- C2. Link-count bound: the list `_discover_pdf_links` returns is
`pdf_links[:num_pdfs]` and so has at most `num_pdfs` elements. -/
theorem discover_pdf_links_length_le (cfg : ScraperConfig) (web : Web)
    (fuel : Nat) (base : String) :
    (discover_pdf_links cfg web fuel base).length ≤ cfg.numPdfs :=
  List.length_take_le cfg.numPdfs _

theorem crawl_visited_aux (cfg : ScraperConfig) (web : Web) (base : String) :
    ∀ (fuel : Nat) (q : List (String × Nat)) (s : CrawlState),
    ((crawlRun cfg web base fuel q s).trace.map Prod.fst).Nodup ∧
    ∀ u ∈ (crawlRun cfg web base fuel q s).trace.map Prod.fst, u ∉ s.visited := by
  intro fuel
  induction fuel with
  | zero => intro q s; simp [crawlRun_zero]
  | succ n ih =>
    intro q s
    rcases q with _ | ⟨⟨url, depth⟩, rest⟩
    · simp [crawlRun_nil]
    · by_cases hg : url ∈ s.visited ∨ cfg.maxDepth < depth
      · rw [crawlRun_skip cfg web base n url depth rest s hg]
        exact ih rest s
      · rw [crawlRun_proc cfg web base n url depth rest s hg]
        have h3 := ih (rest ++ newLinksOf cfg web base url depth (url :: s.visited))
          (procState web url s)
        have hvis : ∀ u ∈ (crawlRun cfg web base n
            (rest ++ newLinksOf cfg web base url depth (url :: s.visited))
            (procState web url s)).trace.map Prod.fst, u ∉ url :: s.visited := h3.2
        push_neg at hg
        constructor
        · simp only [List.map_cons, List.nodup_cons]
          refine ⟨fun hmem => ?_, h3.1⟩
          exact hvis url hmem (List.mem_cons_self url _)
        · intro u hu
          rcases List.mem_cons.mp hu with rfl | hu2
          · exact hg.1
          · intro hbad
            exact hvis u hu2 (List.mem_cons_of_mem _ hbad)

/-- C3. Visited-set: within one call of `_discover_pdf_links` no URL is
processed twice — the sequence of processed URLs has no duplicates, because
the dequeue-time check `url in visited` (line 200) skips any URL already
visited, however many times it was enqueued. -/
theorem crawl_no_revisit (cfg : ScraperConfig) (web : Web) (fuel : Nat) (base : String) :
    ((crawlTrace cfg web fuel base).map Prod.fst).Nodup :=
  (crawl_visited_aux cfg web base fuel [(base, 0)] ⟨[], [], []⟩).1

theorem pairwise_le_of_all_eq (k : Nat) :
    ∀ (L : List Nat), (∀ x ∈ L, x = k) → L.Pairwise (· ≤ ·) := by
  intro L
  induction L with
  | nil => intro _; exact List.Pairwise.nil
  | cons a l ih =>
    intro h
    refine List.Pairwise.cons (fun b hb => ?_) (ih fun x hx => h x (List.mem_cons_of_mem _ hx))
    rw [h a (List.mem_cons_self _ _), h b (List.mem_cons_of_mem _ hb)]

theorem crawl_bfs_aux (cfg : ScraperConfig) (web : Web) (base : String) :
    ∀ (fuel : Nat) (q : List (String × Nat)) (s : CrawlState),
    (q.map Prod.snd).Pairwise (· ≤ ·) →
    (∀ e ∈ q, ∀ f ∈ q, e.2 ≤ f.2 + 1) →
    ((crawlRun cfg web base fuel q s).trace.map Prod.snd).Pairwise (· ≤ ·) ∧
    ∀ e ∈ (crawlRun cfg web base fuel q s).trace, ∃ f ∈ q, f.2 ≤ e.2 := by
  intro fuel
  induction fuel with
  | zero => intro q s _ _; simp [crawlRun_zero]
  | succ n ih =>
    intro q s hsort hnear
    rcases q with _ | ⟨⟨url, depth⟩, rest⟩
    · simp [crawlRun_nil]
    · rw [List.map_cons] at hsort
      have hsort2 : (rest.map Prod.snd).Pairwise (· ≤ ·) :=
        (List.pairwise_cons.mp hsort).2
      have hfront : ∀ f ∈ rest, depth ≤ f.2 := by
        intro f hf
        exact (List.pairwise_cons.mp hsort).1 f.2 (List.mem_map_of_mem Prod.snd hf)
      by_cases hg : url ∈ s.visited ∨ cfg.maxDepth < depth
      · rw [crawlRun_skip cfg web base n url depth rest s hg]
        have hnear2 : ∀ e ∈ rest, ∀ f ∈ rest, e.2 ≤ f.2 + 1 := by
          intro e he f hf
          exact hnear e (List.mem_cons_of_mem _ he) f (List.mem_cons_of_mem _ hf)
        have h3 := ih rest s hsort2 hnear2
        refine ⟨h3.1, fun e he => ?_⟩
        rcases h3.2 e he with ⟨f, hf, hfe⟩
        exact ⟨f, List.mem_cons_of_mem _ hf, hfe⟩
      · rw [crawlRun_proc cfg web base n url depth rest s hg]
        set NL := newLinksOf cfg web base url depth (url :: s.visited) with hNL
        have hNLdepth : ∀ p ∈ NL, p.2 = depth + 1 := by
          intro p hp
          rw [hNL] at hp
          unfold newLinksOf at hp
          split at hp
          · rcases List.mem_map.mp hp with ⟨l, _, rfl⟩; rfl
          · simp at hp
        have hrest_le : ∀ e ∈ rest, e.2 ≤ depth + 1 := by
          intro e he
          exact hnear e (List.mem_cons_of_mem _ he) (url, depth) (List.mem_cons_self _ _)
        have hsort3 : ((rest ++ NL).map Prod.snd).Pairwise (· ≤ ·) := by
          rw [List.map_append, List.pairwise_append]
          refine ⟨hsort2, ?_, ?_⟩
          · refine pairwise_le_of_all_eq (depth + 1) _ ?_
            intro x hx
            rcases List.mem_map.mp hx with ⟨p, hp, rfl⟩
            exact hNLdepth p hp
          · intro a ha b hb
            rcases List.mem_map.mp ha with ⟨p, hp, rfl⟩
            rcases List.mem_map.mp hb with ⟨p2, hp2, rfl⟩
            have h1 := hrest_le p hp
            have h2 := hNLdepth p2 hp2
            omega
        have hnear3 : ∀ e ∈ rest ++ NL, ∀ f ∈ rest ++ NL, e.2 ≤ f.2 + 1 := by
          intro e he f hf
          rcases List.mem_append.mp he with he1 | he1 <;>
            rcases List.mem_append.mp hf with hf1 | hf1
          · exact hnear e (List.mem_cons_of_mem _ he1) f (List.mem_cons_of_mem _ hf1)
          · have h1 := hrest_le e he1
            have h2 := hNLdepth f hf1
            omega
          · have h1 := hNLdepth e he1
            have h2 := hfront f hf1
            omega
          · have h1 := hNLdepth e he1
            have h2 := hNLdepth f hf1
            omega
        have h3 := ih (rest ++ NL) (procState web url s) hsort3 hnear3
        have hdep_le : ∀ e ∈ (crawlRun cfg web base n (rest ++ NL)
            (procState web url s)).trace, depth ≤ e.2 := by
          intro e he
          rcases h3.2 e he with ⟨f, hf, hfe⟩
          rcases List.mem_append.mp hf with hf1 | hf1
          · have := hfront f hf1
            omega
          · have := hNLdepth f hf1
            omega
        constructor
        · simp only [List.map_cons]
          refine List.Pairwise.cons (fun b hb => ?_) h3.1
          rcases List.mem_map.mp hb with ⟨e, he, rfl⟩
          exact hdep_le e he
        · intro e he
          rcases List.mem_cons.mp he with rfl | he2
          · exact ⟨(url, depth), List.mem_cons_self _ _, Nat.le_refl _⟩
          · exact ⟨(url, depth), List.mem_cons_self _ _, hdep_le e he2⟩

/-- C4. Breadth-first order: the sequence of `(url, depth)` pairs
`_discover_pdf_links` processes has nondecreasing depth components, so every
page processed at depth `d` is processed before any page at depth `d + 1`. -/
theorem crawl_bfs_order (cfg : ScraperConfig) (web : Web) (fuel : Nat) (base : String) :
    ((crawlTrace cfg web fuel base).map Prod.snd).Pairwise (· ≤ ·) :=
  (crawl_bfs_aux cfg web base fuel [(base, 0)] ⟨[], [], []⟩ (by simp)
    (by simp)).1

theorem collectPdf_foldl (links : List String) :
    ∀ (seen acc : List String),
    (links.foldl collectPdf (seen, acc)).2 = acc ++ dedupNew seen links ∧
    ∀ x, x ∈ (links.foldl collectPdf (seen, acc)).1 ↔ x ∈ seen ∨ x ∈ links := by
  induction links with
  | nil => intro seen acc; simp [dedupNew]
  | cons l ls ih =>
    intro seen acc
    by_cases hl : l ∈ seen
    · have hstep : collectPdf (seen, acc) l = (seen, acc) := by
        simp [collectPdf, hl]
      rw [List.foldl_cons, hstep, dedupNew, if_pos hl]
      refine ⟨(ih seen acc).1, fun x => ?_⟩
      rw [(ih seen acc).2 x]
      constructor
      · rintro (h | h)
        · exact Or.inl h
        · exact Or.inr (List.mem_cons_of_mem _ h)
      · rintro (h | h)
        · exact Or.inl h
        · rcases List.mem_cons.mp h with rfl | h2
          · exact Or.inl hl
          · exact Or.inr h2
    · have hstep : collectPdf (seen, acc) l = (l :: seen, acc ++ [l]) := by
        simp [collectPdf, hl]
      rw [List.foldl_cons, hstep, dedupNew, if_neg hl]
      refine ⟨?_, fun x => ?_⟩
      · rw [(ih (l :: seen) (acc ++ [l])).1]
        simp
      · rw [(ih (l :: seen) (acc ++ [l])).2 x]
        simp only [List.mem_cons]
        tauto

theorem dedupNew_congr (links : List String) :
    ∀ (s1 s2 : List String), (∀ x, x ∈ s1 ↔ x ∈ s2) →
    dedupNew s1 links = dedupNew s2 links := by
  induction links with
  | nil => intro s1 s2 _; rfl
  | cons l ls ih =>
    intro s1 s2 hequiv
    by_cases hl : l ∈ s1
    · rw [dedupNew, if_pos hl, dedupNew, if_pos ((hequiv l).mp hl)]
      exact ih s1 s2 hequiv
    · rw [dedupNew, if_neg hl, dedupNew, if_neg (fun h => hl ((hequiv l).mpr h))]
      refine congrArg (l :: ·) (ih (l :: s1) (l :: s2) fun x => ?_)
      simp only [List.mem_cons]
      rw [hequiv x]

theorem dedupNew_append (a : List String) :
    ∀ (b seen : List String),
    dedupNew seen (a ++ b) = dedupNew seen a ++ dedupNew (a ++ seen) b := by
  induction a with
  | nil => intro b seen; simp [dedupNew]
  | cons l ls ih =>
    intro b seen
    by_cases hl : l ∈ seen
    · rw [List.cons_append, dedupNew, if_pos hl, dedupNew, if_pos hl, ih]
      refine congrArg _ (dedupNew_congr b _ _ fun x => ?_)
      simp only [List.mem_append, List.mem_cons]
      constructor
      · tauto
      · rintro ((rfl | h) | h)
        · exact Or.inr hl
        · exact Or.inl h
        · exact Or.inr h
    · rw [List.cons_append, dedupNew, if_neg hl, dedupNew, if_neg hl, ih]
      rw [List.cons_append]
      refine congrArg _ (congrArg _ (dedupNew_congr b _ _ fun x => ?_))
      simp only [List.mem_append, List.mem_cons]
      tauto

theorem dedupNew_nodup (links : List String) :
    ∀ (seen : List String),
    (dedupNew seen links).Nodup ∧ ∀ x ∈ dedupNew seen links, x ∉ seen := by
  induction links with
  | nil => intro seen; simp [dedupNew]
  | cons l ls ih =>
    intro seen
    by_cases hl : l ∈ seen
    · rw [dedupNew, if_pos hl]
      exact ih seen
    · rw [dedupNew, if_neg hl]
      have h := ih (l :: seen)
      refine ⟨List.nodup_cons.mpr ⟨fun hmem => ?_, h.1⟩, ?_⟩
      · exact h.2 l hmem (List.mem_cons_self _ _)
      · intro x hx
        rcases List.mem_cons.mp hx with rfl | hx2
        · exact hl
        · exact fun hxs => h.2 x hx2 (List.mem_cons_of_mem _ hxs)

theorem crawl_pdf_aux (cfg : ScraperConfig) (web : Web) (base : String) :
    ∀ (fuel : Nat) (q : List (String × Nat)) (s : CrawlState),
    (crawlRun cfg web base fuel q s).state.pdf_links =
      s.pdf_links ++ dedupNew s.seen_pdfs
        (((crawlRun cfg web base fuel q s).trace.map (fun e => web.pdfLinks e.1)).flatten) ∧
    ∀ x, x ∈ (crawlRun cfg web base fuel q s).state.seen_pdfs ↔
      x ∈ s.seen_pdfs ∨
        x ∈ (((crawlRun cfg web base fuel q s).trace.map (fun e => web.pdfLinks e.1)).flatten) := by
  intro fuel
  induction fuel with
  | zero => intro q s; simp [crawlRun_zero, dedupNew]
  | succ n ih =>
    intro q s
    rcases q with _ | ⟨⟨url, depth⟩, rest⟩
    · simp [crawlRun_nil, dedupNew]
    · by_cases hg : url ∈ s.visited ∨ cfg.maxDepth < depth
      · rw [crawlRun_skip cfg web base n url depth rest s hg]
        exact ih rest s
      · rw [crawlRun_proc cfg web base n url depth rest s hg]
        simp only [List.map_cons, List.flatten_cons]
        set NL := newLinksOf cfg web base url depth (url :: s.visited) with hNL
        have h3 := ih (rest ++ NL) (procState web url s)
        have hfold := collectPdf_foldl (web.pdfLinks url) s.seen_pdfs s.pdf_links
        have hps1 : (procState web url s).pdf_links =
            s.pdf_links ++ dedupNew s.seen_pdfs (web.pdfLinks url) := hfold.1
        have hps2 : ∀ x, x ∈ (procState web url s).seen_pdfs ↔
            x ∈ s.seen_pdfs ∨ x ∈ web.pdfLinks url := hfold.2
        constructor
        · rw [h3.1, hps1, dedupNew_append, List.append_assoc]
          refine congrArg _ (congrArg _ (dedupNew_congr _ _ _ fun x => ?_))
          rw [hps2 x]
          simp only [List.mem_append]
          tauto
        · intro x
          rw [h3.2 x, hps2 x]
          simp only [List.mem_append]
          tauto

/-- C10. The full `pdf_links` list the crawl accumulates is exactly the
first-occurrence deduplication of the PDF links sighted along the trace, so
the returned `pdf_links[:num_pdfs]` is the first `num_pdfs` distinct PDF
links in first-discovery order, and it contains no duplicates. -/
theorem discover_pdf_links_first_discovery (cfg : ScraperConfig) (web : Web)
    (fuel : Nat) (base : String) :
    discover_pdf_links cfg web fuel base =
      (dedupNew []
        (((crawlTrace cfg web fuel base).map (fun e => web.pdfLinks e.1)).flatten)).take
          cfg.numPdfs ∧
    (discover_pdf_links cfg web fuel base).Nodup := by
  have h := crawl_pdf_aux cfg web base fuel [(base, 0)] ⟨[], [], []⟩
  have h1 : discover_pdf_links cfg web fuel base =
      (dedupNew []
        (((crawlTrace cfg web fuel base).map (fun e => web.pdfLinks e.1)).flatten)).take
          cfg.numPdfs := by
    unfold discover_pdf_links crawlTrace
    rw [h.1]
    simp
  refine ⟨h1, ?_⟩
  rw [h1]
  exact (dedupNew_nodup _ []).1.sublist (List.take_sublist _ _)

/-! ### The top-level scrape: return value and failure handling -/

/-- C9. `scrape_website` returns `None` exactly when the crawl discovers no
PDF links; whenever at least one link is discovered it returns the
`scraped_content/<sanitized domain>` output directory, for every download and
extraction behaviour (so even if every download or extraction fails);
and a URL whose download fails (yields `b""`) is skipped rather than
producing output. -/
theorem scrape_website_return (cfg : ScraperConfig) (web : Web)
    (subst : List Char → List Char) (extractRaw : List Nat → List Char)
    (download : String → List Nat) (fuel : Nat) (url : String) :
    ((scrape_website cfg web subst extractRaw download fuel url).1 = none ↔
      discover_pdf_links cfg web fuel url = []) ∧
    (discover_pdf_links cfg web fuel url ≠ [] →
      (scrape_website cfg web subst extractRaw download fuel url).1 =
        some (create_output_directory url)) ∧
    (∀ p, download p = [] → processPdf subst extractRaw download p = none) := by
  refine ⟨?_, ?_, ?_⟩
  · simp only [scrape_website]
    split
    · simp_all
    · simp_all
  · intro hne
    simp only [scrape_website]
    split
    · exact absurd (by assumption) hne
    · rfl
  · intro p hp
    simp only [processPdf, hp]
    simp

theorem scrape_website_return_witness :
    discover_pdf_links cfgW webW 6 "A" ≠ [] ∧
    (scrape_website cfgW webW (fun t => t) extractFail downloadFail 6 "A").1 =
      some (create_output_directory "A") ∧
    downloadFail "p1.pdf" = [] ∧
    processPdf (fun t => t) extractFail downloadFail "p1.pdf" = none := by
  have h := scrape_website_return cfgW webW (fun t => t) extractFail downloadFail 6 "A"
  have hne : discover_pdf_links cfgW webW 6 "A" ≠ [] := by decide
  exact ⟨hne, h.2.1 hne, rfl, h.2.2 "p1.pdf" rfl⟩

/-! ### Word-sequence infrastructure for the text claims -/

theorem wordStep_ne_nil (c : Char) (ws : List (List Char)) : wordStep c ws ≠ [] := by
  unfold wordStep
  by_cases hc : isSpace c
  · rw [if_pos hc]; exact List.cons_ne_nil _ _
  · rw [if_neg hc]
    rcases ws with _ | ⟨w, rest⟩ <;> exact List.cons_ne_nil _ _

theorem foldr_wordStep_ne_nil (a : List Char) :
    ∀ (base : List (List Char)), base ≠ [] → a.foldr wordStep base ≠ [] := by
  induction a with
  | nil => intro base hbase; exact hbase
  | cons c a ih =>
    intro base hbase
    rw [List.foldr_cons]
    exact wordStep_ne_nil c _

theorem wgroups_ne_nil (l : List Char) : wgroups l ≠ [] :=
  foldr_wordStep_ne_nil l [[]] (List.cons_ne_nil _ _)

theorem wgroups_cons (c : Char) (l : List Char) :
    wgroups (c :: l) = wordStep c (wgroups l) := rfl

theorem foldr_wordStep_base (a : List Char) :
    ∀ (x : List Char) (G : List (List Char)),
    a.foldr wordStep (x :: G) = a.foldr wordStep [x] ++ G := by
  induction a with
  | nil => intro x G; rfl
  | cons c a ih =>
    intro x G
    rw [List.foldr_cons, List.foldr_cons, ih x G]
    rcases hF : a.foldr wordStep [x] with _ | ⟨w, W⟩
    · exact absurd hF (foldr_wordStep_ne_nil a [x] (List.cons_ne_nil _ _))
    · by_cases hc : isSpace c
      · simp [wordStep, hc]
      · simp [wordStep, hc]

theorem dropEmpties_append : ∀ (a b : List (List Char)),
    dropEmpties (a ++ b) = dropEmpties a ++ dropEmpties b := by
  intro a
  induction a with
  | nil => intro b; rfl
  | cons w a ih =>
    intro b
    rcases w with _ | ⟨c, w⟩
    · rw [List.cons_append]
      show dropEmpties (a ++ b) = dropEmpties ([] :: a) ++ dropEmpties b
      rw [ih b]
      rfl
    · rw [List.cons_append]
      show (c :: w) :: dropEmpties (a ++ b) =
        dropEmpties ((c :: w) :: a) ++ dropEmpties b
      rw [ih b]
      rfl

theorem words_space_cons {s : Char} (hs : isSpace s = true) (l : List Char) :
    words (s :: l) = words l := by
  unfold words
  rw [wgroups_cons]
  unfold wordStep
  rw [if_pos hs]
  rfl

theorem words_append_space {s : Char} (hs : isSpace s = true) (a b : List Char) :
    words (a ++ s :: b) = words a ++ words b := by
  unfold words
  have h1 : wgroups (a ++ s :: b) = a.foldr wordStep (wgroups (s :: b)) := by
    unfold wgroups
    rw [List.foldr_append]
  have h2 : wordStep s (wgroups b) = [] :: wgroups b := by
    unfold wordStep
    rw [if_pos hs]
  rw [h1, wgroups_cons, h2, foldr_wordStep_base a [] (wgroups b), dropEmpties_append]
  rfl

theorem words_allspace : ∀ (sp : List Char), (∀ c ∈ sp, isSpace c = true) →
    words sp = [] := by
  intro sp
  induction sp with
  | nil => intro _; rfl
  | cons c sp ih =>
    intro h
    rw [words_space_cons (h c (List.mem_cons_self _ _)) sp]
    exact ih fun x hx => h x (List.mem_cons_of_mem _ hx)

theorem words_append_spaces (a sp : List Char) (h : ∀ c ∈ sp, isSpace c = true) :
    words (a ++ sp) = words a := by
  rcases sp with _ | ⟨s, sp⟩
  · simp
  · rw [words_append_space (h s (List.mem_cons_self _ _)) a sp,
        words_allspace sp (fun c hc => h c (List.mem_cons_of_mem _ hc)),
        List.append_nil]

theorem words_spaces_append : ∀ (sp a : List Char), (∀ c ∈ sp, isSpace c = true) →
    words (sp ++ a) = words a := by
  intro sp
  induction sp with
  | nil => intro a _; rfl
  | cons s sp ih =>
    intro a h
    rw [List.cons_append, words_space_cons (h s (List.mem_cons_self _ _))]
    exact ih a fun c hc => h c (List.mem_cons_of_mem _ hc)

theorem words_dropWhile (l : List Char) : words (l.dropWhile isSpace) = words l := by
  conv_rhs => rw [← List.takeWhile_append_dropWhile isSpace l]
  rw [words_spaces_append (l.takeWhile isSpace) (l.dropWhile isSpace)
    (fun c hc => List.mem_takeWhile_imp hc)]

theorem words_pyStrip (l : List Char) : words (pyStrip l) = words l := by
  have h1 : words (l.dropWhile isSpace) = words l := words_dropWhile l
  have hsp : ∀ c ∈ ((l.dropWhile isSpace).reverse.takeWhile isSpace).reverse,
      isSpace c = true := by
    intro c hc
    rw [List.mem_reverse] at hc
    exact List.mem_takeWhile_imp hc
  have hsplit : l.dropWhile isSpace =
      ((l.dropWhile isSpace).reverse.dropWhile isSpace).reverse ++
        ((l.dropWhile isSpace).reverse.takeWhile isSpace).reverse := by
    conv_lhs => rw [← List.reverse_reverse (l.dropWhile isSpace),
      ← List.takeWhile_append_dropWhile isSpace (l.dropWhile isSpace).reverse]
    rw [List.reverse_append]
  have h2 : words (l.dropWhile isSpace) = words (pyStrip l) := by
    conv_lhs => rw [hsplit]
    exact words_append_spaces _ _ hsp
  rw [← h2, h1]

theorem words_nil : words [] = [] := rfl

theorem flatWords_nil : flatWords [] = [] := rfl

theorem flatWords_cons (l : List Char) (ls : List (List Char)) :
    flatWords (l :: ls) = words l ++ flatWords ls := rfl

theorem flatWords_append (a b : List (List Char)) :
    flatWords (a ++ b) = flatWords a ++ flatWords b := by
  simp [flatWords]

theorem joinWith_nil (sep : List Char) : joinWith sep [] = [] := rfl

theorem joinWith_single (sep : List Char) (l : List Char) :
    joinWith sep [l] = l := rfl

theorem joinWith_cons2 (sep l l2 : List Char) (ls : List (List Char)) :
    joinWith sep (l :: l2 :: ls) = l ++ sep ++ joinWith sep (l2 :: ls) := rfl

theorem words_joinWith (sep : List Char) (hall : ∀ c ∈ sep, isSpace c = true)
    (hsep : sep ≠ []) :
    ∀ ls, words (joinWith sep ls) = flatWords ls := by
  intro ls
  induction ls with
  | nil => rfl
  | cons l ls ih =>
    rcases ls with _ | ⟨l2, ls⟩
    · rw [joinWith_single, flatWords_cons, flatWords_nil, List.append_nil]
    · rcases sep with _ | ⟨s, sep2⟩
      · exact absurd rfl hsep
      · rw [joinWith_cons2, flatWords_cons, ← ih]
        rw [List.append_assoc, List.cons_append]
        rw [words_append_space (hall s (List.mem_cons_self _ _))]
        rw [words_spaces_append sep2 _ (fun c hc => hall c (List.mem_cons_of_mem _ hc))]

theorem splitLines_ne_nil : ∀ (t : List Char), splitLines t ≠ [] := by
  intro t
  induction t with
  | nil => exact List.cons_ne_nil _ _
  | cons c cs ih =>
    unfold splitLines
    by_cases hc : c = '\n'
    · rw [if_pos hc]
      exact List.cons_ne_nil _ _
    · rw [if_neg hc]
      rcases h : splitLines cs with _ | ⟨l, ls⟩
      · exact List.cons_ne_nil _ _
      · exact List.cons_ne_nil _ _

theorem joinWith_splitLines : ∀ (t : List Char),
    joinWith ['\n'] (splitLines t) = t := by
  intro t
  induction t with
  | nil => rfl
  | cons c cs ih =>
    unfold splitLines
    by_cases hc : c = '\n'
    · rw [if_pos hc]
      rcases h : splitLines cs with _ | ⟨l, ls⟩
      · exact absurd h (splitLines_ne_nil cs)
      · rw [joinWith_cons2, hc]
        rw [h] at ih
        simp [ih]
    · rw [if_neg hc]
      rcases h : splitLines cs with _ | ⟨l, ls⟩
      · exact absurd h (splitLines_ne_nil cs)
      · rw [h] at ih
        rcases ls with _ | ⟨l2, ls2⟩
        · rw [joinWith_single]
          rw [joinWith_single] at ih
          rw [ih]
        · rw [joinWith_cons2]
          rw [joinWith_cons2] at ih
          simp only [List.cons_append, List.append_assoc] at ih ⊢
          rw [ih]

theorem words_splitLines (t : List Char) :
    words t = flatWords (splitLines t) := by
  conv_lhs => rw [← joinWith_splitLines t]
  exact words_joinWith ['\n'] (by intro c hc; simp at hc; subst hc; rfl)
    (List.cons_ne_nil _ _) (splitLines t)

theorem isSpace_space : isSpace ' ' = true := rfl

theorem mergeAux_words : ∀ (ls : List (List Char)) (prev : Option (List Char))
    (buf : List Char),
    flatWords (mergeAux prev buf ls) = words buf ++ flatWords ls := by
  intro ls
  induction ls with
  | nil =>
    intro prev buf
    by_cases hb : buf = []
    · subst hb
      rw [mergeAux, if_pos rfl]
      rfl
    · rw [mergeAux, if_neg hb]
      simp [flatWords]
  | cons l rest ih =>
    intro prev buf
    rw [mergeAux]
    simp only []
    by_cases h1 : pyStrip l = []
    · rw [if_pos h1, flatWords_append, ih]
      have hwl : words l = [] := by
        rw [← words_pyStrip l, h1, words_nil]
      rw [flatWords_cons, hwl, List.nil_append, words_nil, List.nil_append]
      by_cases hb : buf = []
      · rw [if_pos hb, hb]
        rfl
      · rw [if_neg hb, flatWords_cons, flatWords_cons, flatWords_nil, words_nil]
        simp
    · rw [if_neg h1]
      by_cases h2 : isHeader prev (pyStrip l) = true
      · rw [if_pos h2, flatWords_append, ih, flatWords_cons, ← words_pyStrip l,
          words_nil, List.nil_append]
        by_cases hb : buf = []
        · rw [if_pos hb, hb, flatWords_cons, flatWords_nil, words_nil,
            List.nil_append, List.append_nil]
        · rw [if_neg hb, flatWords_cons, flatWords_cons, flatWords_nil,
            List.append_nil, List.append_assoc]
      · rw [if_neg h2]
        have hbuf2 : words (if buf = [] then pyStrip l
            else buf ++ ' ' :: pyStrip l) = words buf ++ words (pyStrip l) := by
          by_cases hb : buf = []
          · rw [if_pos hb, hb, words_nil, List.nil_append]
          · rw [if_neg hb, words_append_space isSpace_space]
        by_cases h3 : endsPunct (pyStrip l) = true
        · rw [if_pos h3, flatWords_cons, ih, words_nil, List.nil_append, hbuf2,
            flatWords_cons, ← words_pyStrip l, List.append_assoc]
        · rw [if_neg h3, ih, hbuf2, flatWords_cons, ← words_pyStrip l,
            List.append_assoc]

theorem paraAux_words : ∀ (ls : List (List Char)) (cur : List (List Char)),
    flatWords (paraAux cur ls) = flatWords cur ++ flatWords ls := by
  intro ls
  induction ls with
  | nil =>
    intro cur
    by_cases hc : cur = []
    · rw [paraAux, if_pos hc, hc]
      rfl
    · rw [paraAux, if_neg hc]
      have hw := words_joinWith [' ']
        (by intro c hc2; simp at hc2; subst hc2; rfl) (List.cons_ne_nil _ _) cur
      simp [flatWords_cons, flatWords_nil, hw]
  | cons l rest ih =>
    intro cur
    rw [paraAux]
    by_cases h1 : l = []
    · rw [if_pos h1]
      by_cases hc : cur = []
      · rw [if_pos hc, ih, hc, h1]
        simp [flatWords_cons, words_nil]
      · rw [if_neg hc, flatWords_cons, ih]
        have hw := words_joinWith [' ']
          (by intro c hc2; simp at hc2; subst hc2; rfl) (List.cons_ne_nil _ _) cur
        rw [hw, h1]
        simp [flatWords_cons, words_nil, flatWords_nil]
    · rw [if_neg h1, ih, flatWords_append, flatWords_cons]
      simp [flatWords_cons, flatWords_nil]

theorem dropEmpties_cons_empty (rest : List (List Char)) :
    dropEmpties ([] :: rest) = dropEmpties rest := rfl

theorem dropEmpties_cons_ne (c : Char) (w : List Char) (rest : List (List Char)) :
    dropEmpties ((c :: w) :: rest) = (c :: w) :: dropEmpties rest := rfl

theorem wgroups_cons_nonspace {c : Char} (hc : ¬ isSpace c = true) (l : List Char) :
    ∃ w G, wgroups l = w :: G ∧ wgroups (c :: l) = (c :: w) :: G := by
  rcases hG : wgroups l with _ | ⟨w, G⟩
  · exact absurd hG (wgroups_ne_nil l)
  · refine ⟨w, G, rfl, ?_⟩
    rw [wgroups_cons, hG]
    unfold wordStep
    rw [if_neg hc]

theorem words_cons_nonspace {c : Char} (hc : ¬ isSpace c = true) (l : List Char)
    (w : List Char) (G : List (List Char)) (hG : wgroups l = w :: G) :
    words (c :: l) = (c :: w) :: dropEmpties G := by
  obtain ⟨w2, G2, hG2, hcons⟩ := wgroups_cons_nonspace hc l
  rw [hG] at hG2
  obtain ⟨rfl, rfl⟩ : w2 = w ∧ G2 = G := by
    constructor <;> injection hG2 <;> simp_all
  unfold words
  rw [hcons, dropEmpties_cons_ne]

theorem words_cons_congr (c : Char) (X Y : List Char)
    (hw : words X = words Y) (hh : X.head? = Y.head?) :
    words (c :: X) = words (c :: Y) := by
  by_cases hc : isSpace c
  · rw [words_space_cons hc, words_space_cons hc, hw]
  · rcases X with _ | ⟨d, X2⟩
    · rcases Y with _ | ⟨e, Y2⟩
      · rfl
      · simp at hh
    · rcases Y with _ | ⟨e, Y2⟩
      · simp at hh
      · have hde : d = e := by simpa using hh
        subst hde
        by_cases hd : isSpace d
        · have hgX : wgroups (d :: X2) = [] :: wgroups X2 := by
            rw [wgroups_cons]
            unfold wordStep
            rw [if_pos hd]
          have hgY : wgroups (d :: Y2) = [] :: wgroups Y2 := by
            rw [wgroups_cons]
            unfold wordStep
            rw [if_pos hd]
          have hX : words (c :: d :: X2) = [c] :: words X2 :=
            words_cons_nonspace hc (d :: X2) [] (wgroups X2) hgX
          have hY : words (c :: d :: Y2) = [c] :: words Y2 :=
            words_cons_nonspace hc (d :: Y2) [] (wgroups Y2) hgY
          rw [hX, hY]
          rw [words_space_cons hd, words_space_cons hd] at hw
          rw [hw]
        · obtain ⟨w, G, hG, hcons⟩ := wgroups_cons_nonspace hd X2
          obtain ⟨w2, G2, hG2, hcons2⟩ := wgroups_cons_nonspace hd Y2
          have hwX : words (d :: X2) = (d :: w) :: dropEmpties G := by
            unfold words
            rw [hcons, dropEmpties_cons_ne]
          have hwY : words (d :: Y2) = (d :: w2) :: dropEmpties G2 := by
            unfold words
            rw [hcons2, dropEmpties_cons_ne]
          rw [hwX, hwY] at hw
          have hww : w = w2 := by
            have := (List.cons.injEq _ _ _ _).mp hw
            have := (List.cons.injEq _ _ _ _).mp this.1
            exact this.2
          have hGG : dropEmpties G = dropEmpties G2 :=
            ((List.cons.injEq _ _ _ _).mp hw).2
          rw [words_cons_nonspace hc (d :: X2) (d :: w) G hcons,
              words_cons_nonspace hc (d :: Y2) (d :: w2) G2 hcons2,
              hww, hGG]

theorem collapseSpaces_spec : ∀ (l : List Char),
    words (collapseSpaces l) = words l ∧ (collapseSpaces l).head? = l.head? := by
  intro l
  induction l using collapseSpaces.induct with
  | case1 => exact ⟨rfl, rfl⟩
  | case2 c => exact ⟨rfl, rfl⟩
  | case3 c d rest hcd ih =>
    simp only [Bool.and_eq_true, decide_eq_true_eq] at hcd
    obtain ⟨hc, hd⟩ := hcd
    subst hc
    subst hd
    rw [collapseSpaces, if_pos (by simp)]
    refine ⟨?_, ?_⟩
    · rw [ih.1]
      exact (words_space_cons isSpace_space (' ' :: rest)).symm
    · rw [ih.2]
      rfl
  | case4 c d rest hcd ih =>
    rw [collapseSpaces, if_neg hcd]
    exact ⟨words_cons_congr c _ _ ih.1 ih.2, rfl⟩

theorem collapseNewlines_spec : ∀ (l : List Char),
    words (collapseNewlines l) = words l ∧ (collapseNewlines l).head? = l.head? := by
  intro l
  induction l using collapseNewlines.induct with
  | case1 rest ih =>
    rw [collapseNewlines]
    have hn : isSpace '\n' = true := rfl
    refine ⟨?_, ?_⟩
    · rw [ih.1]
      exact (words_space_cons hn ('\n' :: '\n' :: rest)).symm
    · rw [ih.2]
      rfl
  | case2 c rest h ih =>
    have heq : collapseNewlines (c :: rest) = c :: collapseNewlines rest := by
      rw [collapseNewlines]
      exact h
    rw [heq]
    exact ⟨words_cons_congr c _ _ ih.1 ih.2, rfl⟩
  | case3 =>
    have heq : collapseNewlines [] = [] := by rw [collapseNewlines]
    rw [heq]
    exact ⟨rfl, rfl⟩

/-- C6. Paragraph reassembly loses no text: the whitespace-separated word
sequence of `_normalize_text`'s result equals the word sequence of the
de-hyphenated input — line merging, paragraph reassembly and the whitespace
cleanups neither drop, duplicate, nor reorder any word. -/
theorem normalize_text_preserves_words (t : List Char) :
    words (normalize_text t) = words (dehyphenate t) := by
  by_cases ht : t = []
  · subst ht
    have hd : dehyphenate [] = [] := by rw [dehyphenate]
    rw [normalize_text, if_pos rfl, hd]
  · rw [normalize_text, if_neg ht]
    rw [(collapseNewlines_spec _).1, (collapseSpaces_spec _).1]
    rw [words_joinWith ['\n', '\n']
      (by intro c hc; simp at hc; subst hc; rfl) (List.cons_ne_nil _ _) _]
    rw [paraAux_words, flatWords_nil, List.nil_append]
    rw [mergeAux_words, words_nil, List.nil_append]
    rw [← words_splitLines]

/-! ### De-hyphenation (C5) -/

theorem isWordChar_dash : isWordChar '-' = false := rfl

theorem dehyphenate_match (c : Char) (w1' : List Char) (d : Char) (w2' b : List Char)
    (hc : isWordChar c = true) (hw1 : ∀ x ∈ w1', isWordChar x = true)
    (hd : isWordChar d = true) (hw2 : ∀ x ∈ w2', isWordChar x = true)
    (hbt : b.takeWhile isWordChar = []) (hbd : b.dropWhile isWordChar = b) :
    dehyphenate (c :: (w1' ++ ('-' :: '\n' :: d :: (w2' ++ b)))) =
      c :: (w1' ++ (d :: (w2' ++ dehyphenate b))) := by
  have hdropcs : List.dropWhile isWordChar (w1' ++ ('-' :: '\n' :: d :: (w2' ++ b))) =
      '-' :: '\n' :: d :: (w2' ++ b) := by
    rw [List.dropWhile_append_of_pos hw1]
    rw [List.dropWhile_cons_of_neg (by simp [isWordChar_dash])]
  have htakecs : List.takeWhile isWordChar (w1' ++ ('-' :: '\n' :: d :: (w2' ++ b))) =
      w1' := by
    rw [List.takeWhile_append_of_pos hw1]
    rw [List.takeWhile_cons_of_neg (by simp [isWordChar_dash])]
    simp
  have htake2 : List.takeWhile isWordChar (w2' ++ b) = w2' := by
    rw [List.takeWhile_append_of_pos hw2, hbt, List.append_nil]
  have hdrop2 : List.dropWhile isWordChar (w2' ++ b) = b := by
    rw [List.dropWhile_append_of_pos hw2, hbd]
  rw [dehyphenate.eq_2, if_pos hc, hdropcs]
  split
  · rename_i d2 r3 heq
    injection heq with h1 heq
    injection heq with h2 heq
    injection heq with h3 h4
    subst h3
    subst h4
    rw [if_pos hd, htakecs, htake2, hdrop2]
    simp
  · rename_i hno
    exact absurd rfl (hno d (w2' ++ b))

/-- C5. De-hyphenation: a word fragment, a hyphen, a line break and a second
word fragment (an occurrence of `(\w+)-\n(\w+)`) are replaced by the two
fragments concatenated directly, the hyphen and newline removed. `a` is any
prefix the scan passes over unchanged (`dehyphenate` distributes over it);
the second fragment is maximal (`b` does not start with a word character);
and this happens before any line-merging: on nonempty input,
`_normalize_text` is exactly the line-merging pipeline applied to the
de-hyphenated text. -/
theorem dehyphenation_joins_fragments (a w1 w2 b : List Char)
    (ha : ∀ t, dehyphenate (a ++ t) = a ++ dehyphenate t)
    (h1 : w1 ≠ []) (h1w : ∀ x ∈ w1, isWordChar x = true)
    (h2 : w2 ≠ []) (h2w : ∀ x ∈ w2, isWordChar x = true)
    (hb : b = [] ∨ ∃ e b2, b = e :: b2 ∧ isWordChar e = false) :
    dehyphenate (a ++ (w1 ++ ('-' :: '\n' :: (w2 ++ b)))) =
      a ++ (w1 ++ (w2 ++ dehyphenate b)) ∧
    ∀ t, t ≠ [] → normalize_text t =
      collapseNewlines (collapseSpaces (joinWith ['\n', '\n']
        (paraAux [] (mergeAux none [] (splitLines (dehyphenate t)))))) := by
  constructor
  · have hbt : b.takeWhile isWordChar = [] := by
      rcases hb with rfl | ⟨e, b2, rfl, he⟩
      · rfl
      · rw [List.takeWhile_cons_of_neg (by simp [he])]
    have hbd : b.dropWhile isWordChar = b := by
      rcases hb with rfl | ⟨e, b2, rfl, he⟩
      · rfl
      · rw [List.dropWhile_cons_of_neg (by simp [he])]
    rcases w1 with _ | ⟨c, w1'⟩
    · exact absurd rfl h1
    · rcases w2 with _ | ⟨d, w2'⟩
      · exact absurd rfl h2
      · have hc : isWordChar c = true := h1w c (List.mem_cons_self _ _)
        have hw1 : ∀ x ∈ w1', isWordChar x = true :=
          fun x hx => h1w x (List.mem_cons_of_mem _ hx)
        have hd : isWordChar d = true := h2w d (List.mem_cons_self _ _)
        have hw2 : ∀ x ∈ w2', isWordChar x = true :=
          fun x hx => h2w x (List.mem_cons_of_mem _ hx)
        rw [ha]
        have e1 : (c :: w1') ++ ('-' :: '\n' :: ((d :: w2') ++ b)) =
            c :: (w1' ++ ('-' :: '\n' :: d :: (w2' ++ b))) := by
          simp
        rw [e1, dehyphenate_match c w1' d w2' b hc hw1 hd hw2 hbt hbd]
        simp
  · intro t ht
    rw [normalize_text, if_neg ht]

theorem dehyphenation_joins_fragments_witness :
    (∀ t, dehyphenate ([] ++ t) = [] ++ dehyphenate t) ∧
    dehyphenate ([] ++ (['a'] ++ ('-' :: '\n' :: (['b'] ++ [])))) =
      [] ++ (['a'] ++ (['b'] ++ dehyphenate [])) := by
  have ha : ∀ t, dehyphenate ([] ++ t) = [] ++ dehyphenate t := by
    intro t
    simp
  exact ⟨ha, (dehyphenation_joins_fragments [] ['a'] ['b'] [] ha
    (List.cons_ne_nil _ _) (by decide) (List.cons_ne_nil _ _) (by decide)
    (Or.inl rfl)).1⟩

/-! ### Boilerplate line filtering (C7) -/

theorem pyStrip_subset {x : Char} {l : List Char} (hx : x ∈ pyStrip l) : x ∈ l := by
  unfold pyStrip at hx
  rw [List.mem_reverse] at hx
  have h1 := List.dropWhile_subset isSpace hx
  rw [List.mem_reverse] at h1
  exact List.dropWhile_subset isSpace h1

theorem splitLines_no_newline : ∀ (t : List Char), ∀ l ∈ splitLines t, '\n' ∉ l := by
  intro t
  induction t with
  | nil =>
    intro l hl
    simp [splitLines] at hl
    subst hl
    simp
  | cons c cs ih =>
    intro l hl
    unfold splitLines at hl
    by_cases hc : c = '\n'
    · rw [if_pos hc] at hl
      rcases List.mem_cons.mp hl with rfl | hl2
      · simp
      · exact ih l hl2
    · rw [if_neg hc] at hl
      rcases h : splitLines cs with _ | ⟨p, ps⟩
      · exact absurd h (splitLines_ne_nil cs)
      · rw [h] at hl
        rcases List.mem_cons.mp hl with rfl | hl2
        · intro hbad
          rcases List.mem_cons.mp hbad with heq | hmem
          · exact hc heq.symm
          · exact ih p (by rw [h]; exact List.mem_cons_self _ _) hmem
        · exact ih l (by rw [h]; exact List.mem_cons_of_mem _ hl2)

theorem splitLines_single : ∀ (l : List Char), '\n' ∉ l → splitLines l = [l] := by
  intro l
  induction l with
  | nil => intro _; rfl
  | cons c cs ih =>
    intro h
    have hc : ¬ c = '\n' := fun hbad => h (by rw [hbad]; exact List.mem_cons_self _ _)
    have hcs : '\n' ∉ cs := fun hbad => h (List.mem_cons_of_mem _ hbad)
    unfold splitLines
    rw [if_neg hc, ih hcs]

theorem splitLines_append_newline : ∀ (l r : List Char), '\n' ∉ l →
    splitLines (l ++ '\n' :: r) = l :: splitLines r := by
  intro l
  induction l with
  | nil =>
    intro r _
    rw [List.nil_append, splitLines.eq_2, if_pos rfl]
  | cons c cs ih =>
    intro r h
    have hc : ¬ c = '\n' := fun hbad => h (by rw [hbad]; exact List.mem_cons_self _ _)
    have hcs : '\n' ∉ cs := fun hbad => h (List.mem_cons_of_mem _ hbad)
    rw [List.cons_append, splitLines.eq_2, if_neg hc, ih r hcs]

theorem splitLines_joinWith : ∀ (ls : List (List Char)), ls ≠ [] →
    (∀ l ∈ ls, '\n' ∉ l) → splitLines (joinWith ['\n'] ls) = ls := by
  intro ls
  induction ls with
  | nil => intro h _; exact absurd rfl h
  | cons l ls ih =>
    intro _ hnl
    rcases ls with _ | ⟨l2, ls2⟩
    · rw [joinWith_single]
      exact splitLines_single l (hnl l (List.mem_cons_self _ _))
    · rw [joinWith_cons2]
      have e1 : l ++ ['\n'] ++ joinWith ['\n'] (l2 :: ls2) =
          l ++ '\n' :: joinWith ['\n'] (l2 :: ls2) := by
        simp
      rw [e1, splitLines_append_newline l _ (hnl l (List.mem_cons_self _ _)),
        ih (List.cons_ne_nil _ _) (fun x hx => hnl x (List.mem_cons_of_mem _ hx))]

theorem filterLines_mem : ∀ (ls : List (List Char)), ∀ line ∈ filterLines ls,
    line = [] ∨
      (¬((words line).length ≤ 2 ∧ line.length < 15) ∧ ∃ l ∈ ls, line = pyStrip l) := by
  intro ls
  induction ls with
  | nil => intro line hl; simp [filterLines] at hl
  | cons l rest ih =>
    intro line hl
    unfold filterLines at hl
    by_cases h1 : pyStrip l = []
    · rw [if_pos h1] at hl
      rcases List.mem_cons.mp hl with rfl | hl2
      · exact Or.inl rfl
      · rcases ih line hl2 with h | ⟨hth, l2, hl3, he⟩
        · exact Or.inl h
        · exact Or.inr ⟨hth, l2, List.mem_cons_of_mem _ hl3, he⟩
    · rw [if_neg h1] at hl
      by_cases h2 : (words (pyStrip l)).length ≤ 2 ∧ (pyStrip l).length < 15
      · rw [if_pos h2] at hl
        rcases ih line hl with h | ⟨hth, l2, hl3, he⟩
        · exact Or.inl h
        · exact Or.inr ⟨hth, l2, List.mem_cons_of_mem _ hl3, he⟩
      · rw [if_neg h2] at hl
        rcases List.mem_cons.mp hl with rfl | hl2
        · exact Or.inr ⟨h2, l, List.mem_cons_self _ _, rfl⟩
        · rcases ih line hl2 with h | ⟨hth, l2, hl3, he⟩
          · exact Or.inl h
          · exact Or.inr ⟨hth, l2, List.mem_cons_of_mem _ hl3, he⟩

/-- C7. Boilerplate filtering of short lines: every non-empty line of the
string `_filter_content` returns has more than two whitespace-separated words
or at least 15 characters; consequently an input line whose stripped form is
non-empty, has at most two words and fewer than 15 characters never occurs
as an output line. This holds for every behaviour `subst` of the
boilerplate-pattern substitution pass. -/
theorem filter_content_short_lines (subst : List Char → List Char)
    (text : List Char) :
    (∀ line ∈ splitLines (filter_content subst text), line ≠ [] →
      2 < (words line).length ∨ 15 ≤ line.length) ∧
    (∀ l ∈ splitLines (subst text), pyStrip l ≠ [] →
      (words (pyStrip l)).length ≤ 2 → (pyStrip l).length < 15 →
      pyStrip l ∉ splitLines (filter_content subst text)) := by
  have hmain : ∀ line ∈ splitLines (filter_content subst text), line ≠ [] →
      2 < (words line).length ∨ 15 ≤ line.length := by
    intro line hline hne
    unfold filter_content at hline
    rcases hF : filterLines (splitLines (subst text)) with _ | ⟨f, fs⟩
    · rw [hF] at hline
      simp [joinWith, splitLines] at hline
      exact absurd hline hne
    · have hnl : ∀ l2 ∈ filterLines (splitLines (subst text)), '\n' ∉ l2 := by
        intro l2 hl2
        rcases filterLines_mem _ l2 hl2 with rfl | ⟨_, l3, hl3, rfl⟩
        · simp
        · intro hbad
          exact splitLines_no_newline (subst text) l3 hl3 (pyStrip_subset hbad)
      rw [splitLines_joinWith _ (by rw [hF]; exact List.cons_ne_nil _ _) hnl] at hline
      rcases filterLines_mem _ line hline with rfl | ⟨hth, _, _, _⟩
      · exact absurd rfl hne
      · rw [not_and_or] at hth
        rcases hth with h | h
        · exact Or.inl (by omega)
        · exact Or.inr (by omega)
  refine ⟨hmain, ?_⟩
  intro l _ hne hw hlen hbad
  rcases hmain (pyStrip l) hbad hne with h | h
  · omega
  · omega

theorem filter_content_short_lines_witness :
    (['a', ' ', 'b', ' ', 'c', ' ', 'd'] ∈
      splitLines (filter_content (fun t => t) ['a', ' ', 'b', ' ', 'c', ' ', 'd']) ∧
      ['a', ' ', 'b', ' ', 'c', ' ', 'd'] ≠ ([] : List Char)) ∧
    (2 < (words ['a', ' ', 'b', ' ', 'c', ' ', 'd']).length ∨
      15 ≤ (['a', ' ', 'b', ' ', 'c', ' ', 'd'] : List Char).length) := by
  have hm : ['a', ' ', 'b', ' ', 'c', ' ', 'd'] ∈
      splitLines (filter_content (fun t => t) ['a', ' ', 'b', ' ', 'c', ' ', 'd']) := by
    decide
  exact ⟨⟨hm, by decide⟩,
    (filter_content_short_lines (fun t => t) ['a', ' ', 'b', ' ', 'c', ' ', 'd']).1
      _ hm (by decide)⟩
